import Mathlib

/-!
Verification development for the ContentSnap summarization backend
(src/backend/app.py).  The Python functions are shallowly embedded over
`List Char` (text) and `Nat` (lengths and token counts); the summarization
model is an oracle `ModelFn` returning `Option (List Char)`, where `none`
models a raised exception.  Python integer division on non-negative
operands is `Nat` division; Python `str.strip` is `pyStrip` (ASCII
whitespace); Python float comparisons `x > size * 1.5` and `x > size * 2`
are embedded exactly as `3 * size < 2 * x` and `2 * size < x`.
-/

/-- Characters removed by Python `str.strip()` / skipped by `str.split()`
(restricted to the ASCII whitespace relevant here). -/
def isWs (c : Char) : Bool := c.isWhitespace

/-- Python `s.strip()` on a list of characters. -/
def pyStrip (l : List Char) : List Char :=
  ((l.dropWhile isWs).reverse.dropWhile isWs).reverse

/-- The non-whitespace characters of a text, in order.  Two texts are equal
"aside from whitespace normalization" precisely when their `nonWs` images
are equal. -/
def nonWs (l : List Char) : List Char := l.filter (fun c => !isWs c)

/-- Python `text.split(sep)` for a single-character separator, with an
accumulator holding the current piece reversed. -/
def pySplitCharGo (sep : Char) (acc : List Char) : List Char → List (List Char)
  | [] => [acc.reverse]
  | c :: rest =>
    if c = sep then acc.reverse :: pySplitCharGo sep [] rest
    else pySplitCharGo sep (c :: acc) rest

/-- Python `text.split(sep)` for a single-character separator. -/
def pySplitChar (sep : Char) (l : List Char) : List (List Char) :=
  pySplitCharGo sep [] l

/-- Python `text.split(chr(10) + chr(10))`: split on the two-character
blank-line separator, leftmost non-overlapping occurrences. -/
def pySplitNlGo (acc : List Char) : List Char → List (List Char)
  | [] => [acc.reverse]
  | [c] => [(c :: acc).reverse]
  | c1 :: c2 :: rest =>
    if c1 = '\n' ∧ c2 = '\n' then acc.reverse :: pySplitNlGo [] rest
    else pySplitNlGo (c1 :: acc) (c2 :: rest)

/-- Python `text.split` on a blank line. -/
def pySplitNl (l : List Char) : List (List Char) := pySplitNlGo [] l

/-- Fuelled version of the fixed-size window comprehension
`[text[i:i+size] for i in range(0, len(text), size)]` (app.py line 129 and
line 277).  The fuel is instantiated with the length of the text, which is
always sufficient because `size` is at least 1 at every call site. -/
def pySlicesF : Nat → List Char → Nat → List (List Char)
  | 0, _, _ => []
  | fuel + 1, t, size =>
    if t.length = 0 then []
    else if t.length ≤ size then [t]
    else t.take size :: pySlicesF fuel (t.drop size) size

/-- Python `[text[i:i+size] for i in range(0, len(text), size)]`. -/
def pySlices (t : List Char) (size : Nat) : List (List Char) :=
  pySlicesF t.length t size

/-- Python `text.split()` with no separator: whitespace-run splitting with
empty pieces dropped (app.py line 358 uses only its length). -/
def pyWordsGo (acc : List Char) : List Char → List (List Char)
  | [] => if acc = [] then [] else [acc.reverse]
  | c :: rest =>
    if isWs c then
      if acc = [] then pyWordsGo [] rest else acc.reverse :: pyWordsGo [] rest
    else pyWordsGo (c :: acc) rest

/-- Python `text.split()` (no separator argument). -/
def pyWords (t : List Char) : List (List Char) := pyWordsGo [] t

/-- app.py line 115: `target_chunk_size = max(total_length // target_chunks, 1000)`. -/
def chunkSizeOf (t : List Char) (k : Nat) : Nat := max (t.length / k) 1000

/-- app.py line 120: `[p.strip() for p in text.split(blank_line) if p.strip()]`. -/
def paragraphsOf (t : List Char) : List (List Char) :=
  ((pySplitNl t).map pyStrip).filter (fun p => p ≠ [])

/-- app.py line 124: `[s.strip() for s in text.split(dot) if s.strip() and len(s.strip()) > 20]`
(the strict length test subsumes the non-emptiness test). -/
def sentencesOf (t : List Char) : List (List Char) :=
  ((pySplitChar '.' t).map pyStrip).filter (fun s => 20 < s.length)

/-- app.py lines 119-129: the unit-producing stage of the chunk planner,
with its fallback chain paragraphs, then sentences, then fixed windows. -/
def splitUnits (t : List Char) (size : Nat) : List (List Char) :=
  if (paragraphsOf t).length < 3 then
    if sentencesOf t ≠ [] then (sentencesOf t).map (fun s => s ++ ['.'])
    else pySlices t size
  else paragraphsOf t

/-- app.py lines 136-151: one iteration of the greedy packing loop over the
units, on the state (emitted chunks, running chunk).  The first branch is
the overflow emit, the second the 1.5x safety valve; the float comparison
`len > target_chunk_size * 1.5` is embedded exactly as
`3 * size < 2 * len`. -/
def packStep (size : Nat) (st : List (List Char) × List Char) (p : List Char) :
    List (List Char) × List Char :=
  let potential := if st.2 ≠ [] then st.2 ++ ' ' :: p else p
  let st1 : List (List Char) × List Char :=
    if size < potential.length ∧ st.2 ≠ [] then (st.1 ++ [pyStrip st.2], p)
    else (st.1, potential)
  if 3 * size < 2 * st1.2.length then (st1.1 ++ [pyStrip st1.2], []) else st1

/-- app.py lines 133-155: the greedy packing loop followed by the final
`if current_chunk.strip(): chunks.append(...)`. -/
def greedyPack (size : Nat) (units : List (List Char)) : List (List Char) :=
  let r := units.foldl (packStep size) ([], [])
  if pyStrip r.2 ≠ [] then r.1 ++ [pyStrip r.2] else r.1

/-- app.py lines 162-177: force-splitting of one oversized chunk, at the
sentence count midpoint when it has more than two dot-fragments, otherwise
at the raw character midpoint. -/
def forceSplitOne (size : Nat) (c : List Char) : List (List Char) :=
  if 2 * size < c.length then
    (let parts := pySplitChar '.' c
     if 2 < parts.length then
       let m := parts.length / 2
       [pyStrip (List.intercalate ['.'] (parts.take m) ++ ['.']),
        pyStrip (List.intercalate ['.'] (parts.drop m))]
     else
       [pyStrip (c.take (c.length / 2)), pyStrip (c.drop (c.length / 2))])
  else [c]

/-- app.py lines 157-178: the post-pass that force-splits when too few chunks
came out of a long text, followed by the `if c.strip()` filter. -/
def forceSplitPass (chunks : List (List Char)) (size k total : Nat) :
    List (List Char) :=
  if chunks.length < max 2 (k / 3) ∧ 20000 < total then
    ((chunks.map (forceSplitOne size)).flatten).filter (fun c => pyStrip c ≠ [])
  else chunks

/-- app.py lines 109-181: `intelligent_chunk_text(text, target_chunks)`. -/
def intelligent_chunk_text (t : List Char) (k : Nat) : List (List Char) :=
  let size := chunkSizeOf t k
  forceSplitPass (greedyPack size (splitUnits t size)) size k t.length

/-- The summarization model, as an opaque inference capability: arguments
are the input text, `max_length` and `min_length`; `none` models a raised
exception. -/
def ModelFn : Type := List Char → Nat → Nat → Option (List Char)

/-- Which model invocation site of `run_summarization` issued a call. -/
inductive CallKind where
  | direct
  | mapChunk
  | reduce
  | fallback
  deriving DecidableEq, Repr

/-- One model invocation: the input text and the bounds passed. -/
structure SumCall where
  input : List Char
  maxLen : Nat
  minLen : Nat
  kind : CallKind
  deriving DecidableEq, Repr

/-- app.py lines 261-262: `if min_length >= max_length: min_length = max(1, max_length - 50)`. -/
def repairedMin (maxLength minLength : Nat) : Nat :=
  if maxLength ≤ minLength then max 1 (maxLength - 50) else minLength

/-- app.py lines 288-290: the per-chunk token bounds of the map step,
returned as (chunk max length, chunk min length). -/
def chunkBounds (chunkLen : Nat) : Nat × Nat :=
  let chunkTarget := max 150 (min 400 (chunkLen / 3))
  let chunkMax := min 200 (chunkTarget / 4)
  (chunkMax, max 20 (chunkMax / 3))

/-- app.py lines 320-322: the reduce-pass token bounds, returned as
(final max length, final min length). -/
def reduceBounds (combinedLen : Nat) : Nat × Nat :=
  let finalTarget := max 5000 (combinedLen / 2)
  let finalMax := min 400 (finalTarget / 4)
  (finalMax, max 100 (finalMax / 2))

/-- app.py lines 349-350: the bounds of the total-failure fallback call,
returned as (max length, min length). -/
def fallbackBounds (maxLength minLength : Nat) : Nat × Nat :=
  (min maxLength 200, min minLength 50)

/-- app.py lines 358-360: the clamped bounds of the direct (short text)
path, returned as (safe max length, safe min length).  Python
`max(10, min(safe_max - 20, min_length))` agrees with the `Nat`
truncated subtraction because a negative `safe_max - 20` and a zero one
both produce 10. -/
def directBounds (maxLength minLength words : Nat) : Nat × Nat :=
  let safeMax := min maxLength (max 50 (words / 2))
  (safeMax, max 10 (min (safeMax - 20) minLength))

/-- app.py lines 284-309: the map step.  Chunks of at most 100 characters
are skipped; a `none` model answer (a raised exception) is caught and the
chunk is skipped; an answer whose strip is empty is dropped.  Returns the
surviving chunk summaries and the calls issued, both in order. -/
def mapChunks (model : ModelFn) : List (List Char) → List (List Char) × List SumCall
  | [] => ([], [])
  | chunk :: rest =>
    if 100 < chunk.length then
      let cb := chunkBounds chunk.length
      let call : SumCall := ⟨chunk, cb.1, cb.2, CallKind.mapChunk⟩
      let r := mapChunks model rest
      match model chunk cb.1 cb.2 with
      | some s =>
        (if pyStrip s ≠ [] then pyStrip s :: r.1 else r.1, call :: r.2)
      | none => (r.1, call :: r.2)
    else mapChunks model rest

/-- app.py lines 267-278: chunk count selection, the chunk planner call,
and the forced fixed-size re-split when fewer than 3 chunks come back from
a text of more than 20000 characters. -/
def hierChunks (text : List Char) : List (List Char) :=
  let chunkCount := min 30 (max 15 (text.length / 2500))
  let chunks := intelligent_chunk_text text chunkCount
  if chunks.length < 3 ∧ 20000 < text.length then
    pySlices text (text.length / max 10 (chunkCount / 2))
  else chunks

/-- app.py lines 254-376: `run_summarization(text, model_key, max_length,
min_length, detail_level)`.  Returns the summary (`none` models the
request-level failure path, where the Python function returns `None`)
together with the list of model calls issued. -/
def run_summarization (model : ModelFn) (text : List Char)
    (maxLength minLength : Nat) (detail : String) :
    Option (List Char) × List SumCall :=
  let minL := repairedMin maxLength minLength
  if 8000 < text.length then
    let sc := mapChunks model (hierChunks text)
    if sc.1 ≠ [] then
      let combined := List.intercalate [' '] sc.1
      if 8000 < combined.length ∧ detail ≠ "high" then
        let rb := reduceBounds combined.length
        let call : SumCall := ⟨combined, rb.1, rb.2, CallKind.reduce⟩
        match model combined rb.1 rb.2 with
        | some s => (some (pyStrip s), sc.2 ++ [call])
        | none => (some combined, sc.2 ++ [call])
      else (some combined, sc.2)
    else
      let fb := fallbackBounds maxLength minL
      let call : SumCall := ⟨text.take 3000, fb.1, fb.2, CallKind.fallback⟩
      match model (text.take 3000) fb.1 fb.2 with
      | some s => (some (pyStrip s), sc.2 ++ [call])
      | none => (none, sc.2 ++ [call])
  else
    let db := directBounds maxLength minL (pyWords text).length
    let call : SumCall := ⟨text, db.1, db.2, CallKind.direct⟩
    match model text db.1 db.2 with
    | some s => (some (pyStrip s), [call])
    | none => (none, [call])

/-- app.py lines 243-248: conversion of a character target to token bounds
with the final safety repair, returned as (min tokens, max tokens). -/
def tokenBounds (targetLength : Nat) : Nat × Nat :=
  let maxTokens := min 1024 (targetLength / 3)
  let minTokens := max 50 (maxTokens / 3)
  if maxTokens ≤ minTokens then (minTokens, minTokens + 100) else (minTokens, maxTokens)

/-- app.py lines 186-213: the three-tier table keyed by length bucket,
returning (ratio numerator out of 100, tier minimum, tier maximum) with the
dictionary-lookup defaults (30, 2000, 10000) for an unknown detail level. -/
def tierTable (textLength : Nat) (detail : String) : Nat × Nat × Nat :=
  if textLength < 2000 then
    match detail with
    | "low" => (40, 100, 500)
    | "medium" => (60, 200, 1000)
    | "high" => (80, 300, 1500)
    | _ => (30, 2000, 10000)
  else if textLength < 20000 then
    match detail with
    | "low" => (30, 1000, 3000)
    | "medium" => (50, 2500, 7000)
    | "high" => (70, 4000, 12000)
    | _ => (30, 2000, 10000)
  else
    match detail with
    | "low" => (15, 2000, 8000)
    | "medium" => (30, 5000, 15000)
    | "high" => (50, 8000, 25000)
    | _ => (30, 2000, 10000)

/-- app.py lines 225-240: the fixed target-length floors for texts of more
than 100000, respectively more than 50000, characters. -/
def longTextFloor (textLength : Nat) (detail : String) (target : Nat) : Nat :=
  if 100000 < textLength then
    match detail with
    | "high" => max target 20000
    | "medium" => max target 12000
    | _ => max target 8000
  else if 50000 < textLength then
    match detail with
    | "high" => max target 15000
    | "medium" => max target 8000
    | _ => max target 5000
  else target

/-- app.py lines 183-252: `calculate_summary_params(text_length,
detail_level, format_type)`, returning (min tokens, max tokens, target
length).  Python computes `int(text_length * ratio)` with a binary float
ratio; this embedding uses the exact rational value
`text_length * num / 100`, which can differ from the float result by at
most one and feeds into the result only through `tokenBounds`, whose
min-below-max guarantee holds for every target value (see
`tokenBounds_lt`), so no claim below is sensitive to the difference. -/
def calculate_summary_params (textLength : Nat) (detail fmt : String) :
    Nat × Nat × Nat :=
  let tier := tierTable textLength detail
  let target0 := textLength * tier.1 / 100
  let target1 := max tier.2.1 (min target0 tier.2.2)
  let target := longTextFloor textLength detail target1
  ((tokenBounds target).1, (tokenBounds target).2, target)

/-- app.py lines 397-405: the user-override conversion of the endpoint and
its final safety repair, returning (min tokens, max tokens).  `some 0`
behaves like `none` because Python `if request.max_length:` treats 0 as
falsy. -/
def apply_overrides (minTokens maxTokens : Nat)
    (reqMax reqMin : Option Nat) : Nat × Nat :=
  let maxT := match reqMax with
    | some m => if m ≠ 0 then min (m / 3) 1024 else maxTokens
    | none => maxTokens
  let minT := match reqMin with
    | some m => if m ≠ 0 then max (m / 6) 20 else minTokens
    | none => minTokens
  if maxT ≤ minT then (minT, minT + 50) else (minT, maxT)

/-- app.py line 473: `chunks_processed = max(1, text_length // 3000)`,
computed from the cleaned text length alone. -/
def chunks_processed_of (textLength : Nat) : Nat := max 1 (textLength / 3000)

/-! Concrete inputs and model oracles used by counterexamples and witnesses. -/

/-- A text whose sentence-splitting fallback drops the short middle
sentence: both long sentences survive the 20-character filter, the
five-character sentence does not. -/
def exText4 : List Char := "aaaaaaaaaaaaaaaaaaaaaaaaa. xxxxx. bbbbbbbbbbbbbbbbbbbbbbbbb.".toList

/-- A 5064-character text of three paragraphs whose first paragraph is a
single 5000-character unit: the safety valve emits it as one oversized
chunk that is not the last chunk. -/
def exText5 : List Char :=
  List.replicate 5000 'a' ++
    '\n' :: '\n' :: (List.replicate 30 'b' ++ '\n' :: '\n' :: List.replicate 30 'c')

/-- A small three-paragraph text. -/
def exTextPar : List Char := "aa\n\nbb\n\ncc".toList

/-- A 50-character text (the shortest accepted input). -/
def exText50 : List Char := List.replicate 50 'a'

/-- A 7000-character text: long enough that `chunks_processed` reports 2,
short enough for the direct path. -/
def exText7000 : List Char := List.replicate 7000 'a'

/-- An 8001-character text: takes the hierarchical path. -/
def exText8001 : List Char := List.replicate 8001 'a'

/-- A model oracle that always succeeds with a fixed non-empty summary. -/
def mOk : ModelFn := fun _ _ _ => some ('o' :: 'k' :: [])

/-- A model oracle that echoes its input except on the reduce-pass bounds
(max length 400), where it raises. -/
def mReduceFail : ModelFn := fun input maxLen _ =>
  if maxLen = 400 then none else some input

/-- A model oracle that raises on every call except the 3000-character
total-failure fallback input. -/
def mFallbackOnly : ModelFn := fun input _ _ =>
  if input.length = 3000 then some ('o' :: 'k' :: []) else none

/-! ### Basic lemmas about whitespace, stripping and joining -/

theorem nonWs_append (a b : List Char) : nonWs (a ++ b) = nonWs a ++ nonWs b := by
  simp [nonWs]

theorem nonWs_cons_ws (c : Char) (l : List Char) (h : isWs c = true) :
    nonWs (c :: l) = nonWs l := by
  simp [nonWs, List.filter_cons, h]

theorem nonWs_cons_not_ws (c : Char) (l : List Char) (h : isWs c = false) :
    nonWs (c :: l) = c :: nonWs l := by
  simp [nonWs, List.filter_cons, h]

theorem nonWs_dropWhile (l : List Char) : nonWs (l.dropWhile isWs) = nonWs l := by
  induction l with
  | nil => rfl
  | cons c t ih =>
    by_cases h : isWs c
    · rw [List.dropWhile_cons, if_pos h, ih, nonWs_cons_ws c t h]
    · rw [List.dropWhile_cons, if_neg (by simp [h])]

theorem nonWs_reverse (l : List Char) : nonWs l.reverse = (nonWs l).reverse := by
  simp [nonWs]

theorem nonWs_pyStrip (l : List Char) : nonWs (pyStrip l) = nonWs l := by
  unfold pyStrip
  rw [nonWs_reverse, nonWs_dropWhile, nonWs_reverse, List.reverse_reverse,
    nonWs_dropWhile]

theorem nonWs_eq_nil_of_pyStrip (l : List Char) (h : pyStrip l = []) :
    nonWs l = [] := by
  rw [← nonWs_pyStrip, h]; rfl

theorem pyStrip_ne_nil (l : List Char) (h : nonWs l ≠ []) : pyStrip l ≠ [] :=
  fun hs => h (nonWs_eq_nil_of_pyStrip l hs)

theorem pyStrip_length_le (l : List Char) : (pyStrip l).length ≤ l.length := by
  unfold pyStrip
  rw [List.length_reverse]
  calc ((l.dropWhile isWs).reverse.dropWhile isWs).length
      ≤ (l.dropWhile isWs).reverse.length := (List.dropWhile_sublist _).length_le
    _ = (l.dropWhile isWs).length := List.length_reverse _
    _ ≤ l.length := (List.dropWhile_sublist _).length_le

theorem dropWhile_eq_self_of_not_ws (l : List Char)
    (h : ∀ c ∈ l, isWs c = false) : l.dropWhile isWs = l := by
  cases l with
  | nil => rfl
  | cons c t => rw [List.dropWhile_cons, if_neg (by simp [h c (by simp)])]

theorem pyStrip_eq_self (l : List Char) (h : ∀ c ∈ l, isWs c = false) :
    pyStrip l = l := by
  unfold pyStrip
  rw [dropWhile_eq_self_of_not_ws l h,
    dropWhile_eq_self_of_not_ws l.reverse (fun c hc => h c (List.mem_reverse.mp hc)),
    List.reverse_reverse]

theorem nonWs_ne_nil_of_mem (l : List Char) (c : Char) (hc : c ∈ l)
    (h : isWs c = false) : nonWs l ≠ [] := by
  intro hnil
  have := List.filter_eq_nil_iff.mp hnil c hc
  simp [h] at this

/-! ### Lemmas about the split helpers -/

theorem intercalate_singleton {α : Type} (s : List α) (a : List α) :
    List.intercalate s [a] = a := by
  simp [List.intercalate]

theorem intercalate_cons_of_ne_nil {α : Type} (s a : List α)
    (l : List (List α)) (h : l ≠ []) :
    List.intercalate s (a :: l) = a ++ s ++ List.intercalate s l := by
  cases l with
  | nil => exact absurd rfl h
  | cons b t => simp [List.intercalate, List.append_assoc]

theorem pySplitCharGo_ne_nil (sep : Char) :
    ∀ (l acc : List Char), pySplitCharGo sep acc l ≠ [] := by
  intro l
  induction l with
  | nil => intro acc; simp [pySplitCharGo]
  | cons c t ih =>
    intro acc
    by_cases h : c = sep
    · simp [pySplitCharGo, h]
    · simpa [pySplitCharGo, h] using ih (c :: acc)

theorem intercalate_pySplitCharGo (sep : Char) :
    ∀ (l acc : List Char),
      List.intercalate [sep] (pySplitCharGo sep acc l) = acc.reverse ++ l := by
  intro l
  induction l with
  | nil => intro acc; simp [pySplitCharGo, intercalate_singleton]
  | cons c t ih =>
    intro acc
    by_cases h : c = sep
    · rw [pySplitCharGo, if_pos h,
        intercalate_cons_of_ne_nil _ _ _ (pySplitCharGo_ne_nil sep t []),
        ih []]
      simp [h]
    · rw [pySplitCharGo, if_neg h, ih (c :: acc)]
      simp

theorem intercalate_pySplitChar (sep : Char) (l : List Char) :
    List.intercalate [sep] (pySplitChar sep l) = l := by
  simpa using intercalate_pySplitCharGo sep l []

theorem pySplitCharGo_not_mem (sep : Char) :
    ∀ (l acc : List Char), sep ∉ l →
      pySplitCharGo sep acc l = [acc.reverse ++ l] := by
  intro l
  induction l with
  | nil => intro acc _; simp [pySplitCharGo]
  | cons c t ih =>
    intro acc hmem
    have hc : ¬ c = sep := fun h => hmem (h ▸ List.mem_cons_self c t)
    rw [pySplitCharGo, if_neg hc, ih (c :: acc) (fun h => hmem (List.mem_cons_of_mem c h))]
    simp

theorem pySplitChar_not_mem (sep : Char) (l : List Char) (h : sep ∉ l) :
    pySplitChar sep l = [l] := by
  simpa using pySplitCharGo_not_mem sep l [] h

theorem pySplitNlGo_no_nl :
    ∀ (l acc : List Char), '\n' ∉ l → pySplitNlGo acc l = [acc.reverse ++ l] := by
  intro l
  induction l with
  | nil => intro acc _; simp [pySplitNlGo]
  | cons c t ih =>
    intro acc hmem
    have hc : ¬ c = '\n' := fun h => hmem (h ▸ List.mem_cons_self c t)
    cases t with
    | nil => simp [pySplitNlGo]
    | cons c2 r =>
      rw [pySplitNlGo, if_neg (by intro h; exact hc h.1),
        ih (c :: acc) (fun h => hmem (List.mem_cons_of_mem c h))]
      simp

theorem pySplitNlGo_sep :
    ∀ (xs : List Char) (acc rest : List Char), '\n' ∉ xs →
      pySplitNlGo acc (xs ++ '\n' :: '\n' :: rest) =
        (acc.reverse ++ xs) :: pySplitNlGo [] rest := by
  intro xs
  induction xs with
  | nil => intro acc rest _; simp [pySplitNlGo]
  | cons x xs ih =>
    intro acc rest hmem
    have hx : ¬ x = '\n' := fun h => hmem (h ▸ List.mem_cons_self x xs)
    have hxs : '\n' ∉ xs := fun h => hmem (List.mem_cons_of_mem x h)
    cases xs with
    | nil =>
      simp only [List.cons_append, List.nil_append]
      rw [pySplitNlGo, if_neg (by intro h; exact hx h.1), pySplitNlGo,
        if_pos ⟨rfl, rfl⟩]
      simp
    | cons y ys =>
      rw [List.cons_append, List.cons_append, pySplitNlGo,
        if_neg (by intro h; exact hx h.1), ← List.cons_append,
        ih (x :: acc) rest hxs]
      simp

theorem pySlicesF_flatten :
    ∀ (fuel : Nat) (t : List Char) (size : Nat), 1 ≤ size → t.length ≤ fuel →
      (pySlicesF fuel t size).flatten = t := by
  intro fuel
  induction fuel with
  | zero =>
    intro t size _ hlen
    have : t = [] := List.length_eq_zero.mp (Nat.le_zero.mp hlen)
    simp [pySlicesF, this]
  | succ fuel ih =>
    intro t size hsize hlen
    rw [pySlicesF]
    by_cases h0 : t.length = 0
    · simp [h0, List.length_eq_zero.mp h0]
    · rw [if_neg h0]
      by_cases h1 : t.length ≤ size
      · simp [h1]
      · rw [if_neg h1]
        have hd : (t.drop size).length ≤ fuel := by
          rw [List.length_drop]; omega
        rw [List.flatten_cons, ih (t.drop size) size hsize hd,
          List.take_append_drop]

/-! ### The greedy packer preserves non-whitespace content and respects the bound -/

theorem nonWs_space_cons (p : List Char) : nonWs (' ' :: p) = nonWs p :=
  nonWs_cons_ws ' ' p (by decide)

theorem flatten_concat (l : List (List Char)) (x : List Char) :
    (l ++ [x]).flatten = l.flatten ++ x := by simp

theorem packStep_nil_stay (size : Nat) (chunks : List (List Char))
    (p : List Char) (hB : ¬ 3 * size < 2 * p.length) :
    packStep size (chunks, []) p = (chunks, p) := by
  unfold packStep
  dsimp only
  rw [if_neg (show ¬ (([] : List Char) ≠ []) from fun h => h rfl),
    if_neg (show ¬ (size < p.length ∧ ([] : List Char) ≠ []) from fun h => h.2 rfl)]
  dsimp only
  rw [if_neg hB]

theorem packStep_nil_valve (size : Nat) (chunks : List (List Char))
    (p : List Char) (hB : 3 * size < 2 * p.length) :
    packStep size (chunks, []) p = (chunks ++ [pyStrip p], []) := by
  unfold packStep
  dsimp only
  rw [if_neg (show ¬ (([] : List Char) ≠ []) from fun h => h rfl),
    if_neg (show ¬ (size < p.length ∧ ([] : List Char) ≠ []) from fun h => h.2 rfl)]
  dsimp only
  rw [if_pos hB]

theorem packStep_grow (size : Nat) (chunks : List (List Char))
    (cur p : List Char) (hcur : cur ≠ [])
    (hover : ¬ size < (cur ++ ' ' :: p).length) :
    packStep size (chunks, cur) p = (chunks, cur ++ ' ' :: p) := by
  unfold packStep
  dsimp only
  rw [if_pos hcur,
    if_neg (show ¬ (size < (cur ++ ' ' :: p).length ∧ cur ≠ []) from
      fun h => hover h.1)]
  dsimp only
  rw [if_neg (show ¬ 3 * size < 2 * (cur ++ ' ' :: p).length by
    have := Nat.le_of_not_lt hover
    omega)]

theorem packStep_emit (size : Nat) (chunks : List (List Char))
    (cur p : List Char) (hcur : cur ≠ [])
    (hover : size < (cur ++ ' ' :: p).length)
    (hB : ¬ 3 * size < 2 * p.length) :
    packStep size (chunks, cur) p = (chunks ++ [pyStrip cur], p) := by
  unfold packStep
  dsimp only
  rw [if_pos hcur,
    if_pos (show size < (cur ++ ' ' :: p).length ∧ cur ≠ [] from ⟨hover, hcur⟩)]
  dsimp only
  rw [if_neg hB]

theorem packStep_emit_valve (size : Nat) (chunks : List (List Char))
    (cur p : List Char) (hcur : cur ≠ [])
    (hover : size < (cur ++ ' ' :: p).length)
    (hB : 3 * size < 2 * p.length) :
    packStep size (chunks, cur) p =
      ((chunks ++ [pyStrip cur]) ++ [pyStrip p], []) := by
  unfold packStep
  dsimp only
  rw [if_pos hcur,
    if_pos (show size < (cur ++ ' ' :: p).length ∧ cur ≠ [] from ⟨hover, hcur⟩)]
  dsimp only
  rw [if_pos hB]

theorem packStep_nonWs (size : Nat) (st : List (List Char) × List Char)
    (p : List Char) :
    nonWs ((packStep size st p).1.flatten ++ (packStep size st p).2) =
      nonWs (st.1.flatten ++ st.2) ++ nonWs p := by
  obtain ⟨chunks, cur⟩ := st
  by_cases hcur : cur = []
  · subst hcur
    by_cases hB : 3 * size < 2 * p.length
    · rw [packStep_nil_valve size chunks p hB]
      simp [nonWs_append, nonWs_pyStrip, flatten_concat]
    · rw [packStep_nil_stay size chunks p hB]
      simp [nonWs_append]
  · by_cases hover : size < (cur ++ ' ' :: p).length
    · by_cases hB : 3 * size < 2 * p.length
      · rw [packStep_emit_valve size chunks cur p hcur hover hB]
        simp [nonWs_append, nonWs_pyStrip, flatten_concat]
      · rw [packStep_emit size chunks cur p hcur hover hB]
        simp [nonWs_append, nonWs_pyStrip, flatten_concat]
    · rw [packStep_grow size chunks cur p hcur hover]
      simp [nonWs_append, nonWs_space_cons]

theorem foldl_packStep_nonWs (size : Nat) :
    ∀ (units : List (List Char)) (st : List (List Char) × List Char),
      nonWs ((units.foldl (packStep size) st).1.flatten ++
          (units.foldl (packStep size) st).2) =
        nonWs (st.1.flatten ++ st.2) ++ nonWs units.flatten := by
  intro units
  induction units with
  | nil => intro st; simp [nonWs]
  | cons p ps ih =>
    intro st
    rw [List.foldl_cons, ih (packStep size st p), packStep_nonWs]
    simp [nonWs_append]

theorem greedyPack_nonWs (size : Nat) (units : List (List Char)) :
    nonWs (greedyPack size units).flatten = nonWs units.flatten := by
  unfold greedyPack
  have h := foldl_packStep_nonWs size units ([], [])
  simp only [List.flatten_nil, List.nil_append, nonWs_append] at h
  by_cases hs : pyStrip (units.foldl (packStep size) ([], [])).2 = []
  · rw [if_neg (by simpa using hs)]
    have h2 : nonWs (units.foldl (packStep size) ([], [])).2 = [] :=
      nonWs_eq_nil_of_pyStrip _ hs
    rw [h2, List.append_nil] at h
    simpa [nonWs] using h
  · rw [if_pos (by simpa using hs), flatten_concat, nonWs_append, nonWs_pyStrip]
    simpa [nonWs] using h

theorem packStep_bound (size : Nat) (st : List (List Char) × List Char)
    (p : List Char) (hp : 2 * p.length ≤ 3 * size)
    (h1 : ∀ c ∈ st.1, 2 * c.length ≤ 3 * size)
    (h2 : 2 * st.2.length ≤ 3 * size) :
    (∀ c ∈ (packStep size st p).1, 2 * c.length ≤ 3 * size) ∧
      2 * (packStep size st p).2.length ≤ 3 * size := by
  obtain ⟨chunks, cur⟩ := st
  have hstrip : ∀ x : List Char, 2 * (pyStrip x).length ≤ 2 * x.length :=
    fun x => by have := pyStrip_length_le x; omega
  have hB : ¬ 3 * size < 2 * p.length := by omega
  by_cases hcur : cur = []
  · subst hcur
    rw [packStep_nil_stay size chunks p hB]
    exact ⟨h1, hp⟩
  · by_cases hover : size < (cur ++ ' ' :: p).length
    · rw [packStep_emit size chunks cur p hcur hover hB]
      refine ⟨fun c hc => ?_, hp⟩
      rcases List.mem_append.mp hc with h | h
      · exact h1 c h
      · rw [List.mem_singleton.mp h]
        have := hstrip cur
        simp only at h2
        omega
    · rw [packStep_grow size chunks cur p hcur hover]
      have hle : (cur ++ ' ' :: p).length ≤ size := Nat.le_of_not_lt hover
      refine ⟨h1, ?_⟩
      show 2 * (cur ++ ' ' :: p).length ≤ 3 * size
      omega

theorem foldl_packStep_bound (size : Nat) :
    ∀ (units : List (List Char)) (st : List (List Char) × List Char),
      (∀ u ∈ units, 2 * u.length ≤ 3 * size) →
      (∀ c ∈ st.1, 2 * c.length ≤ 3 * size) →
      2 * st.2.length ≤ 3 * size →
      (∀ c ∈ (units.foldl (packStep size) st).1, 2 * c.length ≤ 3 * size) ∧
        2 * (units.foldl (packStep size) st).2.length ≤ 3 * size := by
  intro units
  induction units with
  | nil => intro st _ h1 h2; exact ⟨h1, h2⟩
  | cons p ps ih =>
    intro st hu h1 h2
    rw [List.foldl_cons]
    have hstep := packStep_bound size st p (hu p (by simp)) h1 h2
    exact ih (packStep size st p) (fun u hmem => hu u (by simp [hmem]))
      hstep.1 hstep.2

theorem greedyPack_bound (size : Nat) (units : List (List Char))
    (hu : ∀ u ∈ units, 2 * u.length ≤ 3 * size) :
    ∀ c ∈ greedyPack size units, 2 * c.length ≤ 3 * size := by
  unfold greedyPack
  have h := foldl_packStep_bound size units ([], []) hu (by simp) (by simp)
  by_cases hs : pyStrip (units.foldl (packStep size) ([], [])).2 = []
  · rw [if_neg (by simpa using hs)]
    exact h.1
  · rw [if_pos (by simpa using hs)]
    intro c hc
    rcases List.mem_append.mp hc with hmem | hmem
    · exact h.1 c hmem
    · rw [List.mem_singleton.mp hmem]
      have := pyStrip_length_le (units.foldl (packStep size) ([], [])).2
      have := h.2
      omega

/-! ### The force-split post-pass preserves non-whitespace content -/

theorem intercalate_take_drop {α : Type} (s : List α) :
    ∀ (xs : List (List α)) (m : Nat), 0 < m → m < xs.length →
      List.intercalate s (xs.take m) ++ s ++ List.intercalate s (xs.drop m) =
        List.intercalate s xs := by
  intro xs
  induction xs with
  | nil => intro m _ h2; simp at h2
  | cons x t ih =>
    intro m h1 h2
    match m with
    | 1 =>
      have ht : t ≠ [] := by
        intro h; subst h; simp at h2
      rw [List.take_succ_cons, List.take_zero, List.drop_succ_cons,
        List.drop_zero, intercalate_singleton,
        intercalate_cons_of_ne_nil s x t ht]
    | k + 2 =>
      have hlen : k + 1 < t.length := by simp at h2; omega
      have ht : t ≠ [] := by
        intro h; subst h; simp at hlen
      have htake : t.take (k + 1) ≠ [] := by
        intro h
        rcases List.take_eq_nil_iff.mp h with h | h
        · omega
        · exact ht h
      rw [List.take_succ_cons, List.drop_succ_cons,
        intercalate_cons_of_ne_nil s x (t.take (k + 1)) htake,
        intercalate_cons_of_ne_nil s x t ht, ← ih (k + 1) (Nat.succ_pos k) hlen]
      simp [List.append_assoc]

theorem forceSplitOne_small (size : Nat) (c : List Char)
    (h : ¬ 2 * size < c.length) : forceSplitOne size c = [c] := by
  unfold forceSplitOne
  rw [if_neg h]

theorem forceSplitOne_nonWs (size : Nat) (c : List Char) :
    nonWs (forceSplitOne size c).flatten = nonWs c := by
  unfold forceSplitOne
  by_cases hbig : 2 * size < c.length
  · rw [if_pos hbig]
    dsimp only
    by_cases hparts : 2 < (pySplitChar '.' c).length
    · rw [if_pos hparts]
      simp only [List.flatten_cons, List.flatten_nil, List.append_nil,
        nonWs_append, nonWs_pyStrip]
      rw [← nonWs_append, ← nonWs_append,
        intercalate_take_drop ['.'] (pySplitChar '.' c)
          ((pySplitChar '.' c).length / 2) (by omega) (by omega),
        intercalate_pySplitChar]
    · rw [if_neg hparts]
      simp only [List.flatten_cons, List.flatten_nil, List.append_nil,
        nonWs_append, nonWs_pyStrip]
      rw [← nonWs_append, List.take_append_drop]
  · rw [if_neg hbig]
    simp

theorem nonWs_flatten_filter_strip (l : List (List Char)) :
    nonWs ((l.filter (fun c => pyStrip c ≠ [])).flatten) = nonWs l.flatten := by
  induction l with
  | nil => rfl
  | cons c t ih =>
    rw [List.filter_cons]
    by_cases hc : pyStrip c = []
    · rw [if_neg (by simp [hc])]
      rw [ih, List.flatten_cons, nonWs_append,
        nonWs_eq_nil_of_pyStrip c hc, List.nil_append]
    · rw [if_pos (by simp [hc])]
      rw [List.flatten_cons, List.flatten_cons, nonWs_append, nonWs_append, ih]

theorem nonWs_flatten_forceSplit (size : Nat) (l : List (List Char)) :
    nonWs ((l.map (forceSplitOne size)).flatten.flatten) = nonWs l.flatten := by
  induction l with
  | nil => rfl
  | cons c t ih =>
    rw [List.map_cons, List.flatten_cons, List.flatten_append, nonWs_append,
      ih, forceSplitOne_nonWs, List.flatten_cons, nonWs_append]

theorem forceSplitPass_nonWs (chunks : List (List Char)) (size k total : Nat) :
    nonWs (forceSplitPass chunks size k total).flatten = nonWs chunks.flatten := by
  unfold forceSplitPass
  split
  · rw [nonWs_flatten_filter_strip, nonWs_flatten_forceSplit]
  · rfl

theorem forceSplitPass_bound (chunks : List (List Char)) (size k total : Nat)
    (h : ∀ c ∈ chunks, 2 * c.length ≤ 3 * size) :
    ∀ c ∈ forceSplitPass chunks size k total, 2 * c.length ≤ 3 * size := by
  unfold forceSplitPass
  split
  · intro c hc
    have hc2 := (List.mem_filter.mp hc).1
    rcases List.mem_flatten.mp hc2 with ⟨l, hl, hcl⟩
    rcases List.mem_map.mp hl with ⟨c0, hc0, rfl⟩
    rw [forceSplitOne_small size c0 (by have := h c0 hc0; omega)] at hcl
    rw [List.mem_singleton.mp hcl]
    exact h c0 hc0
  · exact h

/-! ### The unit-producing stage -/

theorem pyStrip_eq_nil_of_nonWs (t : List Char) (h : nonWs t = []) :
    pyStrip t = [] := by
  have hall : ∀ c ∈ t, isWs c = true := by
    intro c hc
    have := List.filter_eq_nil_iff.mp h c hc
    simpa using this
  unfold pyStrip
  rw [List.dropWhile_eq_nil_iff.mpr hall]
  rfl

theorem nonWs_ne_nil_of_pyStrip (t : List Char) (h : pyStrip t ≠ []) :
    nonWs t ≠ [] :=
  fun hn => h (pyStrip_eq_nil_of_nonWs t hn)

theorem nonWs_flatten_pySplitNlGo :
    ∀ (n : Nat) (l acc : List Char), l.length ≤ n →
      nonWs ((pySplitNlGo acc l).flatten) = nonWs acc.reverse ++ nonWs l := by
  intro n
  induction n with
  | zero =>
    intro l acc hl
    have hnil : l = [] := List.length_eq_zero.mp (Nat.le_zero.mp hl)
    subst hnil
    simp [pySplitNlGo, nonWs]
  | succ n ih =>
    intro l acc hl
    match l with
    | [] => simp [pySplitNlGo, nonWs]
    | [c] =>
      simp only [pySplitNlGo, List.flatten_cons, List.flatten_nil,
        List.append_nil, List.reverse_cons]
      rw [nonWs_append]
    | c1 :: c2 :: rest =>
      rw [pySplitNlGo]
      by_cases hc : c1 = '\n' ∧ c2 = '\n'
      · rw [if_pos hc, List.flatten_cons, nonWs_append,
          ih rest [] (by simp at hl ⊢; omega)]
        obtain ⟨h1, h2⟩ := hc
        subst h1; subst h2
        rw [nonWs_cons_ws _ _ (by decide), nonWs_cons_ws _ _ (by decide)]
        simp [nonWs]
      · rw [if_neg hc, ih (c2 :: rest) (c1 :: acc) (by simp at hl ⊢; omega)]
        by_cases h1 : isWs c1
        · rw [nonWs_cons_ws c1 (c2 :: rest) h1, List.reverse_cons, nonWs_append,
            nonWs_cons_ws c1 [] h1]
          simp [nonWs]
        · rw [nonWs_cons_not_ws c1 (c2 :: rest) (by simpa using h1),
            List.reverse_cons, nonWs_append,
            nonWs_cons_not_ws c1 [] (by simpa using h1)]
          simp [nonWs]

theorem nonWs_flatten_pySplitNl (t : List Char) :
    nonWs ((pySplitNl t).flatten) = nonWs t := by
  have := nonWs_flatten_pySplitNlGo t.length t [] le_rfl
  simpa [pySplitNl, nonWs] using this

theorem nonWs_flatten_mapStrip_filter (ps : List (List Char)) :
    nonWs (((ps.map pyStrip).filter (fun p => p ≠ [])).flatten) =
      nonWs ps.flatten := by
  induction ps with
  | nil => rfl
  | cons p t ih =>
    rw [List.map_cons, List.filter_cons]
    by_cases hp : pyStrip p = []
    · rw [if_neg (by simp [hp])]
      rw [ih, List.flatten_cons, nonWs_append,
        nonWs_eq_nil_of_pyStrip p hp, List.nil_append]
    · rw [if_pos (by simp [hp])]
      rw [List.flatten_cons, List.flatten_cons, nonWs_append, nonWs_append,
        nonWs_pyStrip, ih]

theorem nonWs_flatten_paragraphsOf (t : List Char) :
    nonWs (paragraphsOf t).flatten = nonWs t := by
  unfold paragraphsOf
  rw [nonWs_flatten_mapStrip_filter, nonWs_flatten_pySplitNl]

theorem splitUnits_of_paragraphs (t : List Char) (size : Nat)
    (h : 3 ≤ (paragraphsOf t).length) : splitUnits t size = paragraphsOf t := by
  unfold splitUnits
  rw [if_neg (by omega)]

theorem splitUnits_nonWs_ne_nil (t : List Char) (size : Nat) (hsize : 1 ≤ size)
    (h : nonWs t ≠ []) : nonWs (splitUnits t size).flatten ≠ [] := by
  unfold splitUnits
  by_cases hpar : (paragraphsOf t).length < 3
  · rw [if_pos hpar]
    by_cases hsent : sentencesOf t = []
    · rw [if_neg (by simpa using hsent)]
      unfold pySlices
      rw [pySlicesF_flatten t.length t size hsize le_rfl]
      exact h
    · rw [if_pos (by simpa using hsent)]
      match hs : sentencesOf t with
      | [] => exact absurd hs hsent
      | s :: rest =>
        intro hcontra
        rw [List.map_cons, List.flatten_cons, nonWs_append, nonWs_append] at hcontra
        have hdot : nonWs ['.'] = [] := by
          rcases List.append_eq_nil.mp hcontra with ⟨h1, _⟩
          rcases List.append_eq_nil.mp h1 with ⟨_, h3⟩
          exact h3
        rw [nonWs_cons_not_ws '.' [] (by decide)] at hdot
        exact List.cons_ne_nil _ _ hdot
  · rw [if_neg hpar, nonWs_flatten_paragraphsOf]
    exact h

theorem exists_nonWs_chunk (l : List (List Char)) (h : nonWs l.flatten ≠ []) :
    ∃ c ∈ l, pyStrip c ≠ [] := by
  induction l with
  | nil => simp [nonWs] at h
  | cons c t ih =>
    rw [List.flatten_cons, nonWs_append] at h
    by_cases hc : nonWs c = []
    · rw [hc, List.nil_append] at h
      obtain ⟨x, hx1, hx2⟩ := ih h
      exact ⟨x, List.mem_cons_of_mem c hx1, hx2⟩
    · exact ⟨c, List.mem_cons_self c t, pyStrip_ne_nil c hc⟩

/-! ### Claim C2 and its token-bound core -/

theorem tokenBounds_lt (t : Nat) : (tokenBounds t).1 < (tokenBounds t).2 := by
  unfold tokenBounds
  dsimp only
  split <;> omega

/-- C2: for every text length (including the boundary lengths 0, 2000,
20000, 50000, 100000) and every detail level string,
`calculate_summary_params` returns min tokens strictly below max tokens. -/
theorem calc_params_min_lt_max (len : Nat) (detail fmt : String) :
    (calculate_summary_params len detail fmt).1 <
      (calculate_summary_params len detail fmt).2.1 :=
  tokenBounds_lt _

/-- C3: under the endpoint-derived bounds (min tokens strictly below max
tokens, and min tokens at least 20), every model invocation site of
`run_summarization` passes a min length strictly below its max length: the
direct path, the per-chunk map call, and the reduce call. -/
theorem all_call_bounds_strict (maxT minT : Nat) (h1 : minT < maxT)
    (h2 : 20 ≤ minT) :
    (∀ words, (directBounds maxT (repairedMin maxT minT) words).2 <
        (directBounds maxT (repairedMin maxT minT) words).1) ∧
    (∀ len, 100 < len → (chunkBounds len).2 < (chunkBounds len).1) ∧
    (∀ clen, (reduceBounds clen).2 < (reduceBounds clen).1) := by
  refine ⟨fun words => ?_, fun len _ => ?_, fun clen => ?_⟩ <;>
    simp only [directBounds, repairedMin, chunkBounds, reduceBounds] <;> omega

/-- Witness for C3 at the concrete bounds (min 100, max 150) produced by
the endpoint override repair, a 500-word direct input, a 2500-character
chunk, and a 9000-character combined summary. -/
theorem all_call_bounds_strict_witness :
    (directBounds 150 (repairedMin 150 100) 500).2 <
        (directBounds 150 (repairedMin 150 100) 500).1 ∧
    (chunkBounds 2500).2 < (chunkBounds 2500).1 ∧
    (reduceBounds 9000).2 < (reduceBounds 9000).1 :=
  ⟨(all_call_bounds_strict 150 100 (by decide) (by decide)).1 500,
   (all_call_bounds_strict 150 100 (by decide) (by decide)).2.1 2500 (by decide),
   (all_call_bounds_strict 150 100 (by decide) (by decide)).2.2 9000⟩

/-- C9: with user overrides max_length 90 and min_length 600, the endpoint
conversion yields max tokens 30 and min tokens 100; the repair rule fires
and the final bounds are min tokens 100, max tokens 100 + 50 = 150,
whatever the previously computed bounds were. -/
theorem override_example_repair (minT maxT : Nat) :
    apply_overrides minT maxT (some 90) (some 600) = (100, 150) := rfl

/-! ### Claims C4 and C5: the chunk planner -/

theorem not_ws_replicate (n : Nat) (ch : Char) (h : isWs ch = false) :
    ∀ c ∈ List.replicate n ch, isWs c = false := by
  intro c hc
  rw [List.eq_of_mem_replicate hc]
  exact h

theorem nl_not_mem_replicate (n : Nat) (ch : Char) (h : ¬ ('\n' = ch)) :
    '\n' ∉ List.replicate n ch :=
  fun hm => h (List.eq_of_mem_replicate hm)

theorem replicate_ne_nil (n : Nat) (ch : Char) (h : n ≠ 0) :
    List.replicate n ch ≠ [] := by
  intro he
  have hl := congrArg List.length he
  rw [List.length_replicate, List.length_nil] at hl
  exact h hl

/-- C4, counterexample: on `exText4` the sentence-splitting fallback drops
the five-character sentence, so the non-whitespace characters of the input
(among them the letter x) are not all covered by the concatenation of the
returned chunks: coverage modulo whitespace normalization fails. -/
theorem chunker_drops_content :
    ¬ List.Sublist (nonWs exText4)
        (nonWs (intelligent_chunk_text exText4 15).flatten) := by
  intro h
  have hx : 'x' ∈ nonWs exText4 := by decide
  have hx2 : 'x' ∉ nonWs (intelligent_chunk_text exText4 15).flatten := by decide
  exact hx2 (h.subset hx)

/-- C4, amended: for every input text with at least one non-whitespace
character and any target chunk count, the planner returns at least one
chunk with non-whitespace content; and whenever the sentence-splitting
fallback (which discards fragments of at most 20 characters) is not the
path taken — that is, whenever the text splits into at least three
non-empty paragraphs, or no sentence fragment survives the 20-character
filter so the fixed-size-window fallback runs — the concatenation of the
chunks carries exactly the non-whitespace characters of the input, in
order. -/
theorem chunker_amended (t : List Char) (k : Nat) (h : pyStrip t ≠ []) :
    (∃ c ∈ intelligent_chunk_text t k, pyStrip c ≠ []) ∧
    (3 ≤ (paragraphsOf t).length ∨ sentencesOf t = [] →
      nonWs (intelligent_chunk_text t k).flatten = nonWs t) := by
  have hn : nonWs t ≠ [] := nonWs_ne_nil_of_pyStrip t h
  have hsize : 1 ≤ chunkSizeOf t k :=
    le_trans (by norm_num) (le_max_right (t.length / k) 1000)
  constructor
  · apply exists_nonWs_chunk
    unfold intelligent_chunk_text
    rw [forceSplitPass_nonWs, greedyPack_nonWs]
    exact splitUnits_nonWs_ne_nil t _ hsize hn
  · intro hcov
    unfold intelligent_chunk_text
    rw [forceSplitPass_nonWs, greedyPack_nonWs]
    by_cases hpar : 3 ≤ (paragraphsOf t).length
    · rw [splitUnits_of_paragraphs t _ hpar, nonWs_flatten_paragraphsOf]
    · have hsent : sentencesOf t = [] := by
        rcases hcov with hc | hc
        · exact absurd hc hpar
        · exact hc
      unfold splitUnits
      rw [if_pos (by omega), if_neg (by simpa using hsent)]
      unfold pySlices
      rw [pySlicesF_flatten t.length t _ hsize le_rfl]

/-- Witness for the amended C4 on a concrete three-paragraph text. -/
theorem chunker_amended_witness :
    (∃ c ∈ intelligent_chunk_text exTextPar 15, pyStrip c ≠ []) ∧
      nonWs (intelligent_chunk_text exTextPar 15).flatten = nonWs exTextPar :=
  ⟨(chunker_amended exTextPar 15 (by decide)).1,
   (chunker_amended exTextPar 15 (by decide)).2 (Or.inl (by decide))⟩

/-- C5, counterexample: on `exText5` (a three-paragraph text whose first
paragraph is a single 5000-character unit, target chunk size 1000), a chunk
that is not the last one has length 5000, far beyond 1.5 times the target
chunk size: the safety valve emits an oversized single unit as one chunk. -/
theorem chunker_oversized_chunk :
    ∃ c ∈ (intelligent_chunk_text exText5 15).dropLast,
      3 * chunkSizeOf exText5 15 < 2 * c.length := by
  have hlenA : (List.replicate 5000 'a').length = 5000 :=
    List.length_replicate 5000 'a'
  have hlen : exText5.length = 5064 := by
    unfold exText5
    rw [List.length_append, List.length_cons, List.length_cons,
      List.length_append, List.length_cons, List.length_cons,
      List.length_replicate, List.length_replicate, List.length_replicate]
  have hsize : chunkSizeOf exText5 15 = 1000 := by
    unfold chunkSizeOf
    rw [hlen]
    decide
  have hAnws := not_ws_replicate 5000 'a' (by decide)
  have hBnws := not_ws_replicate 30 'b' (by decide)
  have hCnws := not_ws_replicate 30 'c' (by decide)
  have hAne : List.replicate 5000 'a' ≠ [] := replicate_ne_nil 5000 'a' (by decide)
  have hBne : List.replicate 30 'b' ≠ [] := replicate_ne_nil 30 'b' (by decide)
  have hCne : List.replicate 30 'c' ≠ [] := replicate_ne_nil 30 'c' (by decide)
  have hsplit : pySplitNl exText5 =
      [List.replicate 5000 'a', List.replicate 30 'b', List.replicate 30 'c'] := by
    unfold pySplitNl exText5
    rw [pySplitNlGo_sep (List.replicate 5000 'a') []
        (List.replicate 30 'b' ++ '\n' :: '\n' :: List.replicate 30 'c')
        (nl_not_mem_replicate 5000 'a' (by decide)),
      pySplitNlGo_sep (List.replicate 30 'b') [] (List.replicate 30 'c')
        (nl_not_mem_replicate 30 'b' (by decide)),
      pySplitNlGo_no_nl (List.replicate 30 'c') []
        (nl_not_mem_replicate 30 'c' (by decide))]
    simp only [List.reverse_nil, List.nil_append]
  have hmapstrip : (pySplitNl exText5).map pyStrip =
      [List.replicate 5000 'a', List.replicate 30 'b', List.replicate 30 'c'] := by
    rw [hsplit, List.map_cons, List.map_cons, List.map_cons, List.map_nil,
      pyStrip_eq_self _ hAnws, pyStrip_eq_self _ hBnws, pyStrip_eq_self _ hCnws]
  have hpar : paragraphsOf exText5 =
      [List.replicate 5000 'a', List.replicate 30 'b', List.replicate 30 'c'] := by
    unfold paragraphsOf
    rw [hmapstrip]
    apply List.filter_eq_self.mpr
    intro a ha
    rcases List.mem_cons.mp ha with rfl | ha2
    · exact decide_eq_true hAne
    · rcases List.mem_cons.mp ha2 with rfl | ha3
      · exact decide_eq_true hBne
      · rw [List.mem_singleton.mp ha3]
        exact decide_eq_true hCne
  have hunits : splitUnits exText5 1000 =
      [List.replicate 5000 'a', List.replicate 30 'b', List.replicate 30 'c'] := by
    rw [splitUnits_of_paragraphs exText5 1000 (by rw [hpar]; decide), hpar]
  have h1 : packStep 1000 ([], []) (List.replicate 5000 'a') =
      ([List.replicate 5000 'a'], []) := by
    rw [packStep_nil_valve 1000 [] (List.replicate 5000 'a')
      (by rw [hlenA]; omega), pyStrip_eq_self _ hAnws]
    rfl
  have h2 : packStep 1000 ([List.replicate 5000 'a'], [])
      (List.replicate 30 'b') =
      ([List.replicate 5000 'a'], List.replicate 30 'b') :=
    packStep_nil_stay 1000 [List.replicate 5000 'a'] (List.replicate 30 'b')
      (by rw [List.length_replicate]; omega)
  have h3 : packStep 1000 ([List.replicate 5000 'a'], List.replicate 30 'b')
      (List.replicate 30 'c') =
      ([List.replicate 5000 'a'],
        List.replicate 30 'b' ++ ' ' :: List.replicate 30 'c') :=
    packStep_grow 1000 [List.replicate 5000 'a'] (List.replicate 30 'b')
      (List.replicate 30 'c') hBne
      (by
        rw [List.length_append, List.length_cons, List.length_replicate,
          List.length_replicate]
        omega)
  have hfold : [List.replicate 5000 'a', List.replicate 30 'b',
      List.replicate 30 'c'].foldl (packStep 1000) ([], []) =
      ([List.replicate 5000 'a'],
        List.replicate 30 'b' ++ ' ' :: List.replicate 30 'c') := by
    rw [List.foldl_cons, h1, List.foldl_cons, h2, List.foldl_cons, h3,
      List.foldl_nil]
  have hstripBC :
      pyStrip (List.replicate 30 'b' ++ ' ' :: List.replicate 30 'c') ≠ [] := by
    apply pyStrip_ne_nil
    apply nonWs_ne_nil_of_mem _ 'b'
    · exact List.mem_append_left _ (List.mem_replicate.mpr ⟨by decide, rfl⟩)
    · decide
  have hgreedy : greedyPack 1000
      [List.replicate 5000 'a', List.replicate 30 'b', List.replicate 30 'c'] =
      [List.replicate 5000 'a',
        pyStrip (List.replicate 30 'b' ++ ' ' :: List.replicate 30 'c')] := by
    unfold greedyPack
    rw [hfold]
    rw [if_pos (show pyStrip
        (([List.replicate 5000 'a'],
          List.replicate 30 'b' ++ ' ' :: List.replicate 30 'c') :
            List (List Char) × List Char).2 ≠ [] from hstripBC)]
    rfl
  have hchunks : intelligent_chunk_text exText5 15 =
      [List.replicate 5000 'a',
        pyStrip (List.replicate 30 'b' ++ ' ' :: List.replicate 30 'c')] := by
    simp only [intelligent_chunk_text]
    rw [hsize, hunits, hgreedy]
    unfold forceSplitPass
    rw [if_neg (by
      intro h
      have h2 := h.2
      rw [hlen] at h2
      omega)]
  refine ⟨List.replicate 5000 'a', ?_, ?_⟩
  · rw [hchunks]
    rw [show ([List.replicate 5000 'a',
        pyStrip (List.replicate 30 'b' ++ ' ' :: List.replicate 30 'c')]).dropLast =
      [List.replicate 5000 'a'] from rfl]
    exact List.mem_singleton.mpr rfl
  · rw [hsize, hlenA]
    omega

/-- C5, amended: every chunk returned by the planner (the last included) has
length at most 1.5 times the target chunk size, provided every unit
produced by the splitting stage (paragraph, sentence or fixed window)
respects that same bound; an oversized single unit is emitted as a chunk of
its own by the safety valve and can exceed the bound, as the counterexample
shows. -/
theorem chunker_bound_amended (t : List Char) (k : Nat)
    (hu : ∀ u ∈ splitUnits t (chunkSizeOf t k),
      2 * u.length ≤ 3 * chunkSizeOf t k) :
    ∀ c ∈ intelligent_chunk_text t k, 2 * c.length ≤ 3 * chunkSizeOf t k := by
  unfold intelligent_chunk_text
  exact forceSplitPass_bound _ _ _ _ (greedyPack_bound _ _ hu)

/-- Witness for the amended C5 on a concrete three-paragraph text whose
units are all far below the bound, instantiated at the single chunk the
planner returns for it. -/
theorem chunker_bound_amended_witness :
    2 * ("aa bb cc".toList).length ≤ 3 * chunkSizeOf exTextPar 15 :=
  chunker_bound_amended exTextPar 15 (by decide) ("aa bb cc".toList) (by decide)

/-! ### The orchestrator: map step invariants -/

theorem intercalate_ne_nil {α : Type} (sep : List α) (s0 : List α)
    (rest : List (List α)) (h : s0 ≠ []) :
    List.intercalate sep (s0 :: rest) ≠ [] := by
  cases rest with
  | nil =>
    rw [intercalate_singleton]
    exact h
  | cons b t =>
    rw [intercalate_cons_of_ne_nil sep s0 (b :: t) (by simp)]
    intro hc
    exact h (List.append_eq_nil.mp (List.append_eq_nil.mp hc).1).1

theorem mapChunks_kinds (model : ModelFn) :
    ∀ (chunks : List (List Char)), ∀ call ∈ (mapChunks model chunks).2,
      call.kind = CallKind.mapChunk := by
  intro chunks
  induction chunks with
  | nil => intro call hcall; simp [mapChunks] at hcall
  | cons c rest ih =>
    intro call hcall
    unfold mapChunks at hcall
    by_cases hc : 100 < c.length
    · rw [if_pos hc] at hcall
      dsimp only at hcall
      cases hm : model c (chunkBounds c.length).1 (chunkBounds c.length).2 with
      | some s =>
        rw [hm] at hcall
        dsimp only at hcall
        rcases List.mem_cons.mp hcall with rfl | h2
        · rfl
        · exact ih call h2
      | none =>
        rw [hm] at hcall
        dsimp only at hcall
        rcases List.mem_cons.mp hcall with rfl | h2
        · rfl
        · exact ih call h2
    · rw [if_neg hc] at hcall
      exact ih call hcall

theorem mapChunks_summaries_ne_nil (model : ModelFn) :
    ∀ (chunks : List (List Char)) (x : List Char),
      x ∈ (mapChunks model chunks).1 → x ≠ [] := by
  intro chunks
  induction chunks with
  | nil => intro x hx; simp [mapChunks] at hx
  | cons c rest ih =>
    intro x hx
    unfold mapChunks at hx
    by_cases hc : 100 < c.length
    · rw [if_pos hc] at hx
      dsimp only at hx
      cases hm : model c (chunkBounds c.length).1 (chunkBounds c.length).2 with
      | some s =>
        rw [hm] at hx
        dsimp only at hx
        by_cases hstrip : pyStrip s ≠ []
        · rw [if_pos hstrip] at hx
          rcases List.mem_cons.mp hx with rfl | h2
          · exact hstrip
          · exact ih x h2
        · rw [if_neg hstrip] at hx
          exact ih x hx
      | none =>
        rw [hm] at hx
        dsimp only at hx
        exact ih x hx
    · rw [if_neg hc] at hx
      exact ih x hx

/-! ### Claim C6: high detail never triggers the reduce pass -/

/-- C6: with detail level high, no reduce-pass call is ever issued by
`run_summarization`, whatever the model, text and bounds; and on the
hierarchical path with surviving chunk summaries the combined summary is
returned as-is (the single-space concatenation), regardless of its
length. -/
theorem high_detail_no_reduce (model : ModelFn) (text : List Char)
    (maxLength minLength : Nat) :
    (∀ call ∈ (run_summarization model text maxLength minLength "high").2,
      call.kind ≠ CallKind.reduce) ∧
    (8000 < text.length → (mapChunks model (hierChunks text)).1 ≠ [] →
      (run_summarization model text maxLength minLength "high").1 =
        some (List.intercalate [' '] (mapChunks model (hierChunks text)).1)) := by
  constructor
  · intro call hcall
    unfold run_summarization at hcall
    by_cases hlen : 8000 < text.length
    · rw [if_pos hlen] at hcall
      by_cases hsum : (mapChunks model (hierChunks text)).1 ≠ []
      · rw [if_pos hsum,
          if_neg (show ¬ (8000 <
              (List.intercalate [' '] (mapChunks model (hierChunks text)).1).length ∧
              ("high" : String) ≠ "high") from fun h => h.2 rfl)] at hcall
        dsimp only at hcall
        rw [mapChunks_kinds model (hierChunks text) call hcall]
        decide
      · rw [if_neg hsum] at hcall
        dsimp only at hcall
        cases hm : model (text.take 3000)
            (fallbackBounds maxLength (repairedMin maxLength minLength)).1
            (fallbackBounds maxLength (repairedMin maxLength minLength)).2 with
        | some s =>
          rw [hm] at hcall
          dsimp only at hcall
          rcases List.mem_append.mp hcall with h2 | h2
          · rw [mapChunks_kinds model (hierChunks text) call h2]
            decide
          · rw [List.mem_singleton.mp h2]
            exact fun hk => CallKind.noConfusion hk
        | none =>
          rw [hm] at hcall
          dsimp only at hcall
          rcases List.mem_append.mp hcall with h2 | h2
          · rw [mapChunks_kinds model (hierChunks text) call h2]
            decide
          · rw [List.mem_singleton.mp h2]
            exact fun hk => CallKind.noConfusion hk
    · rw [if_neg hlen] at hcall
      dsimp only at hcall
      cases hm : model text
          (directBounds maxLength (repairedMin maxLength minLength)
            (pyWords text).length).1
          (directBounds maxLength (repairedMin maxLength minLength)
            (pyWords text).length).2 with
      | some s =>
        rw [hm] at hcall
        dsimp only at hcall
        rw [List.mem_singleton.mp hcall]
        exact fun hk => CallKind.noConfusion hk
      | none =>
        rw [hm] at hcall
        dsimp only at hcall
        rw [List.mem_singleton.mp hcall]
        exact fun hk => CallKind.noConfusion hk
  · intro hlen hsum
    unfold run_summarization
    rw [if_pos hlen, if_pos hsum,
      if_neg (show ¬ (8000 <
          (List.intercalate [' '] (mapChunks model (hierChunks text)).1).length ∧
          ("high" : String) ≠ "high") from fun h => h.2 rfl)]

/-- C7: on the hierarchical path, when the reduce call raises (the model
returns none on the combined summary with the reduce bounds), the
orchestrator returns the unreduced combined summary unchanged: the request
does not fail. -/
theorem reduce_failure_returns_combined (model : ModelFn) (text : List Char)
    (maxLength minLength : Nat) (detail : String)
    (hlen : 8000 < text.length)
    (hsum : (mapChunks model (hierChunks text)).1 ≠ [])
    (hdetail : detail ≠ "high")
    (hcomb : 8000 <
      (List.intercalate [' '] (mapChunks model (hierChunks text)).1).length)
    (hfail : model (List.intercalate [' '] (mapChunks model (hierChunks text)).1)
      (reduceBounds
        (List.intercalate [' '] (mapChunks model (hierChunks text)).1).length).1
      (reduceBounds
        (List.intercalate [' '] (mapChunks model (hierChunks text)).1).length).2 =
      none) :
    (run_summarization model text maxLength minLength detail).1 =
      some (List.intercalate [' '] (mapChunks model (hierChunks text)).1) := by
  unfold run_summarization
  rw [if_pos hlen, if_pos hsum, if_pos ⟨hcomb, hdetail⟩]
  dsimp only
  rw [hfail]

/-- C8: on the hierarchical path, when no chunk summary survives the map
step, the orchestrator issues one final call on exactly the first 3000
characters of the text with the conservative bounds
(min(max_length, 200), min(min_length, 50)), and when that call succeeds
with a summary of non-empty strip, the request returns it: a non-empty
result. -/
theorem all_chunks_fail_fallback (model : ModelFn) (text : List Char)
    (maxLength minLength : Nat) (detail : String) (s : List Char)
    (hlen : 8000 < text.length)
    (hsum : (mapChunks model (hierChunks text)).1 = [])
    (hok : model (text.take 3000)
      (fallbackBounds maxLength (repairedMin maxLength minLength)).1
      (fallbackBounds maxLength (repairedMin maxLength minLength)).2 = some s)
    (hne : pyStrip s ≠ []) :
    (∃ r, (run_summarization model text maxLength minLength detail).1 = some r ∧
      r ≠ [] ∧ r = pyStrip s) ∧
    (run_summarization model text maxLength minLength detail).2.getLast? =
      some ⟨text.take 3000,
        (fallbackBounds maxLength (repairedMin maxLength minLength)).1,
        (fallbackBounds maxLength (repairedMin maxLength minLength)).2,
        CallKind.fallback⟩ ∧
    (fallbackBounds maxLength (repairedMin maxLength minLength)).1 ≤ 200 ∧
    (fallbackBounds maxLength (repairedMin maxLength minLength)).2 ≤ 50 := by
  have hrun : run_summarization model text maxLength minLength detail =
      (some (pyStrip s), (mapChunks model (hierChunks text)).2 ++
        [⟨text.take 3000,
          (fallbackBounds maxLength (repairedMin maxLength minLength)).1,
          (fallbackBounds maxLength (repairedMin maxLength minLength)).2,
          CallKind.fallback⟩]) := by
    unfold run_summarization
    rw [if_pos hlen,
      if_neg (show ¬ (mapChunks model (hierChunks text)).1 ≠ [] from
        fun h => h hsum)]
    dsimp only
    rw [hok]
  rw [hrun]
  refine ⟨⟨pyStrip s, rfl, hne, rfl⟩, List.getLast?_concat _, ?_, ?_⟩
  · show min maxLength 200 ≤ 200
    omega
  · show min (repairedMin maxLength minLength) 50 ≤ 50
    omega

/-- C1: with at least one registered model selected for the request and a
model that conforms to the contract of the external interface (every call
returns a summary whose strip is non-empty), `run_summarization` returns a
non-empty summary for every cleaned text of length at least 50, every
bounds pair and every detail level: the request never reaches the
request-level failure branch.  Termination holds by construction: the
embedding is a total function. -/
theorem pipeline_nonempty (model : ModelFn) (text : List Char)
    (maxLength minLength : Nat) (detail : String)
    (hmodel : ∀ t a b, ∃ s, model t a b = some s ∧ pyStrip s ≠ [])
    (hlen : 50 ≤ text.length) :
    ∃ s, (run_summarization model text maxLength minLength detail).1 = some s ∧
      s ≠ [] := by
  unfold run_summarization
  by_cases hbig : 8000 < text.length
  · rw [if_pos hbig]
    by_cases hsum : (mapChunks model (hierChunks text)).1 ≠ []
    · rw [if_pos hsum]
      have hcomb : List.intercalate [' '] (mapChunks model (hierChunks text)).1 ≠ [] := by
        match hsc : (mapChunks model (hierChunks text)).1 with
        | [] => exact absurd hsc hsum
        | s0 :: rest =>
          have hs0 : s0 ≠ [] :=
            mapChunks_summaries_ne_nil model (hierChunks text) s0
              (by rw [hsc]; exact List.mem_cons_self s0 rest)
          exact intercalate_ne_nil [' '] s0 rest hs0
      by_cases hred : 8000 <
          (List.intercalate [' '] (mapChunks model (hierChunks text)).1).length ∧
          detail ≠ "high"
      · rw [if_pos hred]
        dsimp only
        obtain ⟨s, hs, hsne⟩ := hmodel
          (List.intercalate [' '] (mapChunks model (hierChunks text)).1)
          (reduceBounds
            (List.intercalate [' '] (mapChunks model (hierChunks text)).1).length).1
          (reduceBounds
            (List.intercalate [' '] (mapChunks model (hierChunks text)).1).length).2
        rw [hs]
        exact ⟨pyStrip s, rfl, hsne⟩
      · rw [if_neg hred]
        exact ⟨List.intercalate [' '] (mapChunks model (hierChunks text)).1,
          rfl, hcomb⟩
    · rw [if_neg hsum]
      dsimp only
      obtain ⟨s, hs, hsne⟩ := hmodel (text.take 3000)
        (fallbackBounds maxLength (repairedMin maxLength minLength)).1
        (fallbackBounds maxLength (repairedMin maxLength minLength)).2
      rw [hs]
      exact ⟨pyStrip s, rfl, hsne⟩
  · rw [if_neg hbig]
    dsimp only
    obtain ⟨s, hs, hsne⟩ := hmodel text
      (directBounds maxLength (repairedMin maxLength minLength)
        (pyWords text).length).1
      (directBounds maxLength (repairedMin maxLength minLength)
        (pyWords text).length).2
    rw [hs]
    exact ⟨pyStrip s, rfl, hsne⟩

/-- Witness for C1 at a concrete 50-character text, bounds (150, 100) and a
model that always answers with a fixed non-empty summary. -/
theorem pipeline_nonempty_witness :
    ∃ s, (run_summarization mOk exText50 150 100 "medium").1 = some s ∧
      s ≠ [] :=
  pipeline_nonempty mOk exText50 150 100 "medium"
    (fun t a b => ⟨'o' :: 'k' :: [], rfl, by decide⟩) (by decide)

/-! ### Symbolic evaluation of the pipeline on the 8001-character example -/

theorem exText8001_len : exText8001.length = 8001 := by
  unfold exText8001
  rw [List.length_replicate]

theorem exText8001_not_ws : ∀ c ∈ exText8001, isWs c = false :=
  not_ws_replicate 8001 'a' (by decide)

theorem udot_len : (exText8001 ++ ['.']).length = 8002 := by
  rw [List.length_append, exText8001_len]
  rfl

theorem udot_not_ws : ∀ c ∈ exText8001 ++ ['.'], isWs c = false := by
  intro c hc
  rcases List.mem_append.mp hc with h | h
  · exact exText8001_not_ws c h
  · rw [List.mem_singleton.mp h]
    decide

theorem udot_strip : pyStrip (exText8001 ++ ['.']) = exText8001 ++ ['.'] :=
  pyStrip_eq_self _ udot_not_ws

theorem udot_ne_nil : exText8001 ++ ['.'] ≠ [] := by
  intro h
  have := congrArg List.length h
  rw [udot_len, List.length_nil] at this
  omega

theorem chunks_ex8001 : intelligent_chunk_text exText8001 15 =
    [exText8001 ++ ['.']] := by
  have hne : exText8001 ≠ [] := replicate_ne_nil 8001 'a' (by decide)
  have hsplitNl : pySplitNl exText8001 = [exText8001] := by
    unfold pySplitNl
    rw [pySplitNlGo_no_nl exText8001 []
      (by unfold exText8001; exact nl_not_mem_replicate 8001 'a' (by decide))]
    simp only [List.reverse_nil, List.nil_append]
  have hpar : paragraphsOf exText8001 = [exText8001] := by
    unfold paragraphsOf
    rw [hsplitNl, List.map_cons, List.map_nil,
      pyStrip_eq_self _ exText8001_not_ws]
    apply List.filter_eq_self.mpr
    intro a ha
    rw [List.mem_singleton.mp ha]
    exact decide_eq_true hne
  have hsent : sentencesOf exText8001 = [exText8001] := by
    unfold sentencesOf
    rw [pySplitChar_not_mem '.' exText8001
        (by unfold exText8001; intro hm; exact absurd (List.eq_of_mem_replicate hm) (by decide)),
      List.map_cons, List.map_nil, pyStrip_eq_self _ exText8001_not_ws]
    apply List.filter_eq_self.mpr
    intro a ha
    rw [List.mem_singleton.mp ha]
    exact decide_eq_true (show 20 < exText8001.length by rw [exText8001_len]; omega)
  have hsize : chunkSizeOf exText8001 15 = 1000 := by
    unfold chunkSizeOf
    rw [exText8001_len]
    decide
  have hunits : splitUnits exText8001 1000 = [exText8001 ++ ['.']] := by
    unfold splitUnits
    rw [hpar, hsent]
    rw [if_pos (show ([exText8001] : List (List Char)).length < 3 by decide),
      if_pos (show ([exText8001] : List (List Char)) ≠ [] by decide)]
    rfl
  have hgreedy : greedyPack 1000 [exText8001 ++ ['.']] = [exText8001 ++ ['.']] := by
    unfold greedyPack
    rw [List.foldl_cons,
      packStep_nil_valve 1000 [] (exText8001 ++ ['.']) (by rw [udot_len]; omega),
      List.foldl_nil]
    rw [if_neg (show ¬ pyStrip
        ((([] : List (List Char)) ++ [pyStrip (exText8001 ++ ['.'])],
          ([] : List Char)) : List (List Char) × List Char).2 ≠ [] from
      fun h => h rfl)]
    rw [udot_strip]
    rfl
  simp only [intelligent_chunk_text]
  rw [hsize, hunits, hgreedy]
  unfold forceSplitPass
  rw [if_neg (by
    intro h
    have h2 := h.2
    rw [exText8001_len] at h2
    omega)]

theorem hier_ex8001 : hierChunks exText8001 = [exText8001 ++ ['.']] := by
  simp only [hierChunks]
  rw [exText8001_len]
  rw [show min 30 (max 15 (8001 / 2500)) = 15 from by decide]
  rw [chunks_ex8001]
  rw [if_neg (by
    intro h
    have h2 := h.2
    omega)]

theorem mapChunks_mOk_fst :
    (mapChunks mOk (hierChunks exText8001)).1 = [pyStrip ('o' :: 'k' :: [])] := by
  rw [hier_ex8001]
  unfold mapChunks
  rw [if_pos (show 100 < (exText8001 ++ ['.']).length by rw [udot_len]; omega)]
  dsimp only [mOk]
  rw [if_pos (show pyStrip ('o' :: 'k' :: []) ≠ [] by decide)]
  rfl

theorem mapChunks_mRF_fst :
    (mapChunks mReduceFail (hierChunks exText8001)).1 = [exText8001 ++ ['.']] := by
  rw [hier_ex8001]
  unfold mapChunks
  rw [if_pos (show 100 < (exText8001 ++ ['.']).length by rw [udot_len]; omega)]
  dsimp only
  rw [show chunkBounds (exText8001 ++ ['.']).length = (100, 33) from by
    rw [udot_len]; decide]
  dsimp only [mReduceFail]
  rw [if_neg (show ¬ (100 = 400) by decide)]
  dsimp only
  rw [if_pos (show pyStrip (exText8001 ++ ['.']) ≠ [] from by
    rw [udot_strip]; exact udot_ne_nil)]
  rw [udot_strip]
  rfl

theorem mapChunks_mFB_fst :
    (mapChunks mFallbackOnly (hierChunks exText8001)).1 = [] := by
  rw [hier_ex8001]
  unfold mapChunks
  rw [if_pos (show 100 < (exText8001 ++ ['.']).length by rw [udot_len]; omega)]
  dsimp only
  rw [show mFallbackOnly (exText8001 ++ ['.'])
      (chunkBounds (exText8001 ++ ['.']).length).1
      (chunkBounds (exText8001 ++ ['.']).length).2 = none from by
    unfold mFallbackOnly
    rw [if_neg (by rw [udot_len]; omega)]]
  rfl

/-- Witness for C6 on the concrete 8001-character text: no reduce call in
the trace, and the combined summary is returned as-is. -/
theorem high_detail_no_reduce_witness :
    (∀ call ∈ (run_summarization mOk exText8001 150 100 "high").2,
      call.kind ≠ CallKind.reduce) ∧
    (run_summarization mOk exText8001 150 100 "high").1 =
      some (List.intercalate [' '] (mapChunks mOk (hierChunks exText8001)).1) :=
  ⟨(high_detail_no_reduce mOk exText8001 150 100).1,
   (high_detail_no_reduce mOk exText8001 150 100).2
     (by rw [exText8001_len]; omega)
     (by rw [mapChunks_mOk_fst]; decide)⟩

/-- Witness for C7 on the concrete 8001-character text with a model that
raises exactly on the reduce bounds. -/
theorem reduce_failure_returns_combined_witness :
    (run_summarization mReduceFail exText8001 150 100 "medium").1 =
      some (List.intercalate [' ']
        (mapChunks mReduceFail (hierChunks exText8001)).1) :=
  reduce_failure_returns_combined mReduceFail exText8001 150 100 "medium"
    (by rw [exText8001_len]; omega)
    (by rw [mapChunks_mRF_fst]; decide)
    (by decide)
    (by rw [mapChunks_mRF_fst, intercalate_singleton, udot_len]; omega)
    (by
      rw [mapChunks_mRF_fst, intercalate_singleton, udot_len]
      rw [show reduceBounds 8002 = (400, 200) from by decide]
      rfl)

/-- Witness for C8 on the concrete 8001-character text with a model that
succeeds only on the 3000-character fallback input. -/
theorem all_chunks_fail_fallback_witness :
    (∃ r, (run_summarization mFallbackOnly exText8001 150 100 "medium").1 =
        some r ∧ r ≠ [] ∧ r = pyStrip ('o' :: 'k' :: [])) ∧
    (run_summarization mFallbackOnly exText8001 150 100 "medium").2.getLast? =
      some ⟨exText8001.take 3000,
        (fallbackBounds 150 (repairedMin 150 100)).1,
        (fallbackBounds 150 (repairedMin 150 100)).2,
        CallKind.fallback⟩ ∧
    (fallbackBounds 150 (repairedMin 150 100)).1 ≤ 200 ∧
    (fallbackBounds 150 (repairedMin 150 100)).2 ≤ 50 :=
  all_chunks_fail_fallback mFallbackOnly exText8001 150 100 "medium"
    ('o' :: 'k' :: [])
    (by rw [exText8001_len]; omega)
    mapChunks_mFB_fst
    (by
      unfold mFallbackOnly
      rw [if_pos (show (exText8001.take 3000).length = 3000 by
        rw [List.length_take, exText8001_len]
        decide)])
    (by decide)

/-! ### Claim C10: the reported chunk count is a length-only estimate -/

theorem pyWordsGo_no_ws :
    ∀ (l acc : List Char), (∀ c ∈ l, isWs c = false) → (acc ≠ [] ∨ l ≠ []) →
      pyWordsGo acc l = [acc.reverse ++ l] := by
  intro l
  induction l with
  | nil =>
    intro acc _ hor
    have hacc : acc ≠ [] := by
      rcases hor with h | h
      · exact h
      · exact absurd rfl h
    rw [pyWordsGo, if_neg hacc]
    rw [List.append_nil]
  | cons c rest ih =>
    intro acc h _
    rw [pyWordsGo, if_neg (by simp [h c (by simp)])]
    rw [ih (c :: acc) (fun x hx => h x (List.mem_cons_of_mem c hx))
      (Or.inl (by simp))]
    simp

theorem pyWords_ex7000 : pyWords exText7000 = [exText7000] := by
  unfold pyWords
  rw [pyWordsGo_no_ws exText7000 []
    (by unfold exText7000; exact not_ws_replicate 7000 'a' (by decide))
    (Or.inr (replicate_ne_nil 7000 'a' (by decide)))]
  rfl

/-- C10: `chunks_processed` is `max(1, cleaned_length // 3000)`, computed
from the cleaned text length alone; on the concrete 7000-character text the
request takes the direct path and issues exactly one model call, yet
reports `chunks_processed = 2`. -/
theorem chunks_processed_estimate :
    chunks_processed_of exText7000.length = 2 ∧
    (run_summarization mOk exText7000 150 100 "medium").2.length = 1 ∧
    (∀ call ∈ (run_summarization mOk exText7000 150 100 "medium").2,
      call.kind = CallKind.direct) ∧
    (∀ n, chunks_processed_of n = max 1 (n / 3000)) := by
  have hlen : exText7000.length = 7000 := by
    unfold exText7000
    rw [List.length_replicate]
  have hrun : run_summarization mOk exText7000 150 100 "medium" =
      (some (pyStrip ('o' :: 'k' :: [])),
        [⟨exText7000,
          (directBounds 150 (repairedMin 150 100) (pyWords exText7000).length).1,
          (directBounds 150 (repairedMin 150 100) (pyWords exText7000).length).2,
          CallKind.direct⟩]) := by
    unfold run_summarization
    rw [if_neg (by rw [hlen]; omega)]
    dsimp only [mOk]
  refine ⟨?_, ?_, ?_, fun n => rfl⟩
  · rw [hlen]
    rfl
  · rw [hrun]
    rfl
  · intro call hcall
    rw [hrun] at hcall
    dsimp only at hcall
    rw [List.mem_singleton.mp hcall]
